import Mathlib

/-!
Verification development for the neutrino orchestrator and gateway.

The Rust `f64` resource quantities are modelled as exact rationals (ℚ): the
scheduling and accounting code only adds, subtracts, divides and compares
them, so ℚ is a faithful model of the arithmetic the control flow depends on.
Machine integers (`u32`, `u64`, `usize`) are modelled as `Nat`.
-/

namespace Neutrino

/-! ## Worker data model (src/crates/neutrino-core/src/worker/mod.rs and protocol/mod.rs) -/

/-- `WorkerState` from worker/mod.rs. -/
inductive WorkerState where
  | Starting
  | Idle
  | Busy
  | Recycling
deriving DecidableEq

/-- `ResourceRequirements` from protocol/mod.rs (three `f64` fields). -/
structure ResourceRequirements where
  num_cpus : ℚ
  num_gpus : ℚ
  memory_gb : ℚ
deriving DecidableEq

/-- `ResourceCapabilities` from protocol/mod.rs. -/
structure ResourceCapabilities where
  num_cpus : ℚ
  num_gpus : ℚ
  memory_gb : ℚ
deriving DecidableEq

/-- `ResourceAllocation` from worker/mod.rs. -/
structure ResourceAllocation where
  allocated_cpus : ℚ
  allocated_gpus : ℚ
  allocated_memory_gb : ℚ
deriving DecidableEq

/-- `ResourceAllocation::allocate` from worker/mod.rs: add each requirement dimension. -/
def ResourceAllocation.allocate (a : ResourceAllocation) (r : ResourceRequirements) :
    ResourceAllocation :=
  ⟨a.allocated_cpus + r.num_cpus,
   a.allocated_gpus + r.num_gpus,
   a.allocated_memory_gb + r.memory_gb⟩

/-- `ResourceAllocation::deallocate` from worker/mod.rs: subtract each requirement
dimension, then clamp each dimension to at least 0 (`.max(0.0)`). -/
def ResourceAllocation.deallocate (a : ResourceAllocation) (r : ResourceRequirements) :
    ResourceAllocation :=
  ⟨max (a.allocated_cpus - r.num_cpus) 0,
   max (a.allocated_gpus - r.num_gpus) 0,
   max (a.allocated_memory_gb - r.memory_gb) 0⟩

/-- `Worker` from worker/mod.rs. The identity fields (`id`, `pid`, `socket_path`)
play no role in the verified claims and are omitted. The fields `tasks_completed`,
`current_memory_mb` and `lifetime_secs` are modelled from the spec (section 3
"Worker Record"): the copy of worker/mod.rs under src/ does not carry them,
only the orchestrator code that reads them is present. `lifetime_secs` stands
for `spawn_time.elapsed().as_secs()` at the current observation point. -/
structure Worker where
  state : WorkerState
  capabilities : ResourceCapabilities
  allocation : ResourceAllocation
  tasks_completed : Nat
  current_memory_mb : Nat
  lifetime_secs : Nat
deriving DecidableEq

/-- `Worker::has_capacity` from worker/mod.rs: each available dimension
(capability minus allocation) must be at least the corresponding requirement. -/
def Worker.has_capacity (w : Worker) (r : ResourceRequirements) : Bool :=
  decide (r.num_cpus ≤ w.capabilities.num_cpus - w.allocation.allocated_cpus) &&
  decide (r.num_gpus ≤ w.capabilities.num_gpus - w.allocation.allocated_gpus) &&
  decide (r.memory_gb ≤ w.capabilities.memory_gb - w.allocation.allocated_memory_gb)

/-! ## Orchestrator selection (src/crates/neutrino-core/src/orchestrator/mod.rs) -/

/-- One scan loop of `Orchestrator::find_worker_with_resources`: visit
`(start + offset) % n` for `offset = 0, 1, ..., n-1` and return the first index
whose worker satisfies the predicate. -/
def scanFrom (workers : List Worker) (start : Nat) (p : Worker → Bool) : Option Nat :=
  (List.range workers.length).findSome? fun off =>
    let cur := (start + off) % workers.length
    match workers.get? cur with
    | some w => if p w then some cur else none
    | none => none

/-- The resource-profile check of `find_worker_with_resources`: a worker is
skipped exactly when the task is a GPU task (`requirements.num_gpus > 0.0`) and
the worker is not a GPU worker (`capabilities.num_gpus > 0.0` fails). -/
def profileOk (requirements : ResourceRequirements) (w : Worker) : Bool :=
  !(decide (0 < requirements.num_gpus) && !(decide (0 < w.capabilities.num_gpus)))

/-- `Orchestrator::find_worker_with_resources` from orchestrator/mod.rs, as a pure
function of the worker list and the round-robin cursor. Returns the selected index
together with the advanced cursor `(selected + 1) % n`. Pass 1: idle, matching
profile, capacity. Pass 2: any state, matching profile, capacity. Pass 3 (only
when the task is CPU-only): the same two scans without the profile restriction. -/
def find_worker_with_resources (workers : List Worker) (start_index : Nat)
    (requirements : ResourceRequirements) : Option (Nat × Nat) :=
  if workers.isEmpty then none else
  match scanFrom workers start_index (fun w =>
      profileOk requirements w &&
      (decide (w.state = WorkerState.Idle) && w.has_capacity requirements)) with
  | some cur => some (cur, (cur + 1) % workers.length)
  | none =>
  match scanFrom workers start_index (fun w =>
      profileOk requirements w && w.has_capacity requirements) with
  | some cur => some (cur, (cur + 1) % workers.length)
  | none =>
  if !(decide (0 < requirements.num_gpus)) then
    match scanFrom workers start_index (fun w =>
        decide (w.state = WorkerState.Idle) && w.has_capacity requirements) with
    | some cur => some (cur, (cur + 1) % workers.length)
    | none =>
    match scanFrom workers start_index (fun w => w.has_capacity requirements) with
    | some cur => some (cur, (cur + 1) % workers.length)
    | none => none
  else none

/-- If a scan returns index `cur`, then the worker at `cur` exists and satisfies
the scan predicate. -/
theorem scanFrom_some {workers : List Worker} {start : Nat} {p : Worker → Bool} {cur : Nat}
    (h : scanFrom workers start p = some cur) :
    ∃ w, workers.get? cur = some w ∧ p w = true := by
  obtain ⟨off, _, hf⟩ := List.exists_of_findSome?_eq_some h
  dsimp only at hf
  cases hw : workers.get? ((start + off) % workers.length) with
  | none => rw [hw] at hf; simp at hf
  | some w =>
    rw [hw] at hf
    by_cases hp : p w = true
    · simp only [if_pos hp, Option.some.injEq] at hf
      subst hf
      exact ⟨w, hw, hp⟩
    · simp only [if_neg hp] at hf
      exact absurd hf (by simp)

/-- Every pass of the selector requires `has_capacity` of the selected worker,
and the selected index is in range. -/
theorem find_worker_has_capacity {workers : List Worker} {start : Nat}
    {req : ResourceRequirements} {i c : Nat}
    (h : find_worker_with_resources workers start req = some (i, c)) :
    ∃ w, workers.get? i = some w ∧ w.has_capacity req = true := by
  unfold find_worker_with_resources at h
  by_cases he : workers.isEmpty
  · rw [if_pos he] at h; exact absurd h (by simp)
  · rw [if_neg he] at h
    cases h1 : scanFrom workers start (fun w =>
        profileOk req w && (decide (w.state = WorkerState.Idle) && w.has_capacity req)) with
    | some cur =>
      simp only [h1, Option.some.injEq, Prod.mk.injEq] at h
      obtain ⟨rfl, rfl⟩ := h
      obtain ⟨w, hw, hp⟩ := scanFrom_some h1
      simp only [Bool.and_eq_true] at hp
      exact ⟨w, hw, hp.2.2⟩
    | none =>
      simp only [h1] at h
      cases h2 : scanFrom workers start (fun w => profileOk req w && w.has_capacity req) with
      | some cur =>
        simp only [h2, Option.some.injEq, Prod.mk.injEq] at h
        obtain ⟨rfl, rfl⟩ := h
        obtain ⟨w, hw, hp⟩ := scanFrom_some h2
        simp only [Bool.and_eq_true] at hp
        exact ⟨w, hw, hp.2⟩
      | none =>
        simp only [h2] at h
        by_cases hg : decide (0 < req.num_gpus) = true
        · rw [hg] at h
          simp only [Bool.not_true, Bool.false_eq_true, if_false] at h
          exact absurd h (by simp)
        · rw [Bool.of_not_eq_true hg] at h
          simp only [Bool.not_false, if_true] at h
          cases h3 : scanFrom workers start (fun w =>
              decide (w.state = WorkerState.Idle) && w.has_capacity req) with
          | some cur =>
            simp only [h3, Option.some.injEq, Prod.mk.injEq] at h
            obtain ⟨rfl, rfl⟩ := h
            obtain ⟨w, hw, hp⟩ := scanFrom_some h3
            simp only [Bool.and_eq_true] at hp
            exact ⟨w, hw, hp.2⟩
          | none =>
            simp only [h3] at h
            cases h4 : scanFrom workers start (fun w => w.has_capacity req) with
            | some cur =>
              simp only [h4, Option.some.injEq, Prod.mk.injEq] at h
              obtain ⟨rfl, rfl⟩ := h
              obtain ⟨w, hw, hp⟩ := scanFrom_some h4
              exact ⟨w, hw, hp⟩
            | none =>
              simp only [h4] at h
              exact absurd h (by simp)

/-- For a GPU task, a worker that passes the profile check has positive GPU
capability. -/
theorem profileOk_gpu {req : ResourceRequirements} {w : Worker}
    (hgpu : 0 < req.num_gpus) (h : profileOk req w = true) :
    0 < w.capabilities.num_gpus := by
  unfold profileOk at h
  rw [decide_eq_true hgpu] at h
  simp only [Bool.true_and, Bool.not_not] at h
  exact of_decide_eq_true h

/-- Claim C1: for every pool state and every task requirements with
`num_gpus > 0`, `find_worker_with_resources` never returns the index of a worker
whose `capabilities.num_gpus == 0`: GPU tasks are confined to GPU-capable
workers by the profile check of the first two selection passes, and the pass-3
profile relaxation is guarded by the task being CPU-only. -/
theorem C1_gpu_tasks_confined (workers : List Worker) (start : Nat)
    (req : ResourceRequirements) (i c : Nat) (w : Worker)
    (hgpu : 0 < req.num_gpus)
    (hfind : find_worker_with_resources workers start req = some (i, c))
    (hw : workers.get? i = some w) :
    w.capabilities.num_gpus ≠ 0 := by
  unfold find_worker_with_resources at hfind
  by_cases he : workers.isEmpty
  · rw [if_pos he] at hfind; exact absurd hfind (by simp)
  · rw [if_neg he] at hfind
    cases h1 : scanFrom workers start (fun w =>
        profileOk req w && (decide (w.state = WorkerState.Idle) && w.has_capacity req)) with
    | some cur =>
      simp only [h1, Option.some.injEq, Prod.mk.injEq] at hfind
      obtain ⟨rfl, rfl⟩ := hfind
      obtain ⟨w', hw', hp⟩ := scanFrom_some h1
      rw [hw] at hw'
      cases hw'
      simp only [Bool.and_eq_true] at hp
      exact (ne_of_lt (profileOk_gpu hgpu hp.1)).symm
    | none =>
      simp only [h1] at hfind
      cases h2 : scanFrom workers start (fun w => profileOk req w && w.has_capacity req) with
      | some cur =>
        simp only [h2, Option.some.injEq, Prod.mk.injEq] at hfind
        obtain ⟨rfl, rfl⟩ := hfind
        obtain ⟨w', hw', hp⟩ := scanFrom_some h2
        rw [hw] at hw'
        cases hw'
        simp only [Bool.and_eq_true] at hp
        exact (ne_of_lt (profileOk_gpu hgpu hp.1)).symm
      | none =>
        simp only [h2, decide_eq_true hgpu, Bool.not_true, Bool.false_eq_true, if_false] at hfind
        exact absurd hfind (by simp)

/-- Witness for C1 at a concrete pool: a GPU request on a pool whose first
worker is CPU-only selects the GPU worker at index 1, and that worker has
nonzero GPU capability. -/
theorem C1_gpu_tasks_confined_witness :
    (0 : ℚ) < (1 : ℚ) ∧
    ((⟨WorkerState.Idle, ⟨4, 1, 8⟩, ⟨0, 0, 0⟩, 0, 0, 0⟩ : Worker).capabilities.num_gpus ≠ 0) :=
  ⟨by norm_num,
   C1_gpu_tasks_confined
     [⟨WorkerState.Idle, ⟨4, 0, 8⟩, ⟨0, 0, 0⟩, 0, 0, 0⟩,
      ⟨WorkerState.Idle, ⟨4, 1, 8⟩, ⟨0, 0, 0⟩, 0, 0, 0⟩]
     0 ⟨1, 1, 1⟩ 1 0 _ (by norm_num)
     (by norm_num [find_worker_with_resources, scanFrom, profileOk, Worker.has_capacity,
       List.range_succ, List.findSome?])
     rfl⟩

/-! ## Request lifecycle (src/crates/neutrino-core/src/http/mod.rs,
`execute_task_with_body` / `execute_task_no_body`) -/

/-- The orchestrator pool state a request interacts with: the worker vector and
the round-robin cursor. -/
structure Pool where
  workers : List Worker
  next_idx : Nat
deriving DecidableEq

/-- Replace the worker at index `i` by `f` of it (identity when out of range). -/
def applyAt (ws : List Worker) (i : Nat) (f : Worker → Worker) : List Worker :=
  match ws.get? i with
  | some w => ws.set i (f w)
  | none => ws

/-- First half of `execute_task_with_body`: call `find_worker_with_resources`;
on success, `allocate` the requirements on the selected worker and mark it
`Busy` (the state while the task assignment is sent and the result awaited). -/
def beginTask (p : Pool) (req : ResourceRequirements) : Option (Nat × Pool) :=
  match find_worker_with_resources p.workers p.next_idx req with
  | none => none
  | some (i, c) =>
    some (i, ⟨applyAt p.workers i (fun w =>
      { w with allocation := w.allocation.allocate req, state := WorkerState.Busy }), c⟩)

/-- Second half of `execute_task_with_body`: after the result (or an I/O error),
`deallocate` the requirements on the worker and mark it `Idle` again. -/
def finishTask (p : Pool) (i : Nat) (req : ResourceRequirements) : Pool :=
  ⟨applyAt p.workers i (fun w =>
    { w with allocation := w.allocation.deallocate req, state := WorkerState.Idle }), p.next_idx⟩

/-- A whole request that completes: selection + allocation, then completion. -/
def runRequest (p : Pool) (req : ResourceRequirements) : Option (Nat × Pool) :=
  match beginTask p req with
  | some (i, p') => some (i, finishTask p' i req)
  | none => none

/-- Claim C6 as amended: in the exact-arithmetic model of the `f64` operations,
`allocate` followed by `deallocate` of the same requirements restores every
allocation state with non-negative dimensions exactly in all three dimensions:
`(a + r) - r = a` holds exactly and the clamp is then the identity. Under the
program's real `f64` rounding the restoration is only approximate — see the
counterexample `C6_exact_restoration_counterexample` below. -/
theorem C6_allocate_deallocate_exact (a : ResourceAllocation) (r : ResourceRequirements)
    (h1 : 0 ≤ a.allocated_cpus) (h2 : 0 ≤ a.allocated_gpus)
    (h3 : 0 ≤ a.allocated_memory_gb) :
    (a.allocate r).deallocate r = a := by
  obtain ⟨x, y, z⟩ := a
  simp only [ResourceAllocation.allocate, ResourceAllocation.deallocate,
    ResourceAllocation.mk.injEq]
  refine ⟨?_, ?_, ?_⟩
  · rw [add_sub_cancel_right]; exact max_eq_left h1
  · rw [add_sub_cancel_right]; exact max_eq_left h2
  · rw [add_sub_cancel_right]; exact max_eq_left h3

/-- Witness for C6 at a concrete allocation and requirement. -/
theorem C6_allocate_deallocate_exact_witness :
    ((0 : ℚ) ≤ 1 ∧ (0 : ℚ) ≤ 0 ∧ (0 : ℚ) ≤ 2) ∧
    ((⟨1, 0, 2⟩ : ResourceAllocation).allocate ⟨1, 0, 1⟩).deallocate ⟨1, 0, 1⟩ =
      (⟨1, 0, 2⟩ : ResourceAllocation) :=
  ⟨⟨by norm_num, by norm_num, by norm_num⟩,
   C6_allocate_deallocate_exact ⟨1, 0, 2⟩ ⟨1, 0, 1⟩ (by norm_num) (by norm_num) (by norm_num)⟩

/-- Round-to-nearest, ties-to-even, of a positive rational to 53 significant
binary digits: the IEEE-754 binary64 rounding of a positive real value in the
normal range (subnormal and overflow thresholds do not arise at the inputs
considered here). With `e` the floor of the base-2 logarithm, `q / 2 ^ (e - 52)`
lies in `[2^52, 2^53)` and is rounded to an integer significand. -/
def roundPos (q : ℚ) : ℚ :=
  let e : ℤ := Int.log 2 q
  let scale : ℚ := (2 : ℚ) ^ (e - 52)
  let m : ℚ := q / scale
  let fl : ℤ := ⌊m⌋
  if m - fl < 1 / 2 then fl * scale
  else if 1 / 2 < m - fl then (fl + 1) * scale
  else if fl % 2 = 0 then fl * scale else (fl + 1) * scale

/-- IEEE-754 binary64 rounding of an exact rational to the nearest
representable double (round-to-nearest, ties-to-even). -/
def roundDouble (q : ℚ) : ℚ :=
  if q = 0 then 0
  else if 0 < q then roundPos q
  else -roundPos (-q)

/-- `ResourceAllocation::allocate` at `f64` precision: each dimension's sum is
rounded as the hardware rounds the `+=`. -/
def ResourceAllocation.f64allocate (a : ResourceAllocation) (r : ResourceRequirements) :
    ResourceAllocation :=
  ⟨roundDouble (a.allocated_cpus + r.num_cpus),
   roundDouble (a.allocated_gpus + r.num_gpus),
   roundDouble (a.allocated_memory_gb + r.memory_gb)⟩

/-- `ResourceAllocation::deallocate` at `f64` precision: rounded subtraction on
each dimension, then the `.max(0.0)` clamp. -/
def ResourceAllocation.f64deallocate (a : ResourceAllocation) (r : ResourceRequirements) :
    ResourceAllocation :=
  ⟨max (roundDouble (a.allocated_cpus - r.num_cpus)) 0,
   max (roundDouble (a.allocated_gpus - r.num_gpus)) 0,
   max (roundDouble (a.allocated_memory_gb - r.memory_gb)) 0⟩

/-- The exact value of the `f64` literal `0.1` (the closest double to 1/10). -/
def dblTenth : ℚ := 3602879701896397 / 2 ^ 55

/-- The exact value of the `f64` literal `0.2` (the closest double to 1/5). -/
def dblFifth : ℚ := 3602879701896397 / 2 ^ 54

theorem log2_eq_of_bounds {q : ℚ} {e : ℤ} (hq : 0 < q)
    (h1 : (2 : ℚ) ^ e ≤ q) (h2 : q < (2 : ℚ) ^ (e + 1)) : Int.log 2 q = e := by
  have hcast : ((2 : ℕ) : ℚ) = (2 : ℚ) := by norm_num
  have hle : e ≤ Int.log 2 q := by
    rw [← Int.zpow_le_iff_le_log one_lt_two hq, hcast]
    exact h1
  have hlt : Int.log 2 q < e + 1 := by
    rw [← Int.lt_zpow_iff_log_lt one_lt_two hq, hcast]
    exact h2
  omega

/-- `0.1 + 0.2` rounds up to `0.30000000000000004` (a round-to-even tie at 53
bits). -/
theorem roundDouble_sum_eval :
    roundDouble (dblTenth + dblFifth) = 5404319552844596 / 2 ^ 54 := by
  have hsum : dblTenth + dblFifth = 10808639105689191 / 2 ^ 55 := by
    norm_num [dblTenth, dblFifth]
  rw [hsum, roundDouble, if_neg (by norm_num), if_pos (by norm_num)]
  simp only [roundPos]
  have hlog : Int.log 2 (10808639105689191 / 2 ^ 55 : ℚ) = -2 :=
    log2_eq_of_bounds (by norm_num) (by norm_num) (by norm_num)
  rw [hlog]
  have hscale : (2 : ℚ) ^ ((-2 : ℤ) - 52) = 1 / 2 ^ 54 := by norm_num
  rw [hscale]
  have hm : (10808639105689191 / 2 ^ 55 : ℚ) / (1 / 2 ^ 54) = 10808639105689191 / 2 := by
    norm_num
  rw [hm]
  have hfl : ⌊(10808639105689191 / 2 : ℚ)⌋ = 5404319552844595 := by
    rw [Int.floor_eq_iff]
    norm_num
  rw [hfl]
  rw [if_neg (by push_cast; norm_num), if_neg (by push_cast; norm_num), if_neg (by decide)]
  push_cast
  norm_num

/-- `0.30000000000000004 - 0.2` is exactly representable and equals
`0.10000000000000003`, not `0.1`. -/
theorem roundDouble_diff_eval :
    roundDouble (5404319552844596 / 2 ^ 54 - dblFifth) = 1801439850948199 / 2 ^ 54 := by
  have hdiff : (5404319552844596 / 2 ^ 54 : ℚ) - dblFifth = 1801439850948199 / 2 ^ 54 := by
    norm_num [dblFifth]
  rw [hdiff, roundDouble, if_neg (by norm_num), if_pos (by norm_num)]
  simp only [roundPos]
  have hlog : Int.log 2 (1801439850948199 / 2 ^ 54 : ℚ) = -4 :=
    log2_eq_of_bounds (by norm_num) (by norm_num) (by norm_num)
  rw [hlog]
  have hscale : (2 : ℚ) ^ ((-4 : ℤ) - 52) = 1 / 2 ^ 56 := by norm_num
  rw [hscale]
  have hm : (1801439850948199 / 2 ^ 54 : ℚ) / (1 / 2 ^ 56) = 7205759403792796 := by
    norm_num
  rw [hm]
  have hfl : ⌊(7205759403792796 : ℚ)⌋ = 7205759403792796 := by
    rw [Int.floor_eq_iff]
    norm_num
  rw [hfl]
  rw [if_pos (by push_cast; norm_num)]
  push_cast
  norm_num

/-- Counterexample to claim C6 as stated: under the program's `f64` arithmetic
(modelled by `roundDouble`, IEEE-754 round-to-nearest-even), allocating `0.2`
and then deallocating `0.2` on an allocation of `0.1` returns
`0.10000000000000003 = 1801439850948199/2^54`, not `0.1`: the rounding of
`0.1 + 0.2` is not undone by the subtraction and the clamp does not correct it,
so the restoration is not exact. -/
theorem C6_exact_restoration_counterexample :
    ((((⟨dblTenth, 0, 0⟩ : ResourceAllocation).f64allocate
        ⟨dblFifth, 0, 0⟩).f64deallocate ⟨dblFifth, 0, 0⟩) ≠
      (⟨dblTenth, 0, 0⟩ : ResourceAllocation)) ∧
    ((((⟨dblTenth, 0, 0⟩ : ResourceAllocation).f64allocate
        ⟨dblFifth, 0, 0⟩).f64deallocate ⟨dblFifth, 0, 0⟩).allocated_cpus =
      1801439850948199 / 2 ^ 54) := by
  have hz : roundDouble 0 = 0 := by rw [roundDouble, if_pos rfl]
  have heval : (((⟨dblTenth, 0, 0⟩ : ResourceAllocation).f64allocate
      ⟨dblFifth, 0, 0⟩).f64deallocate ⟨dblFifth, 0, 0⟩) =
      ⟨1801439850948199 / 2 ^ 54, 0, 0⟩ := by
    simp only [ResourceAllocation.f64allocate, ResourceAllocation.f64deallocate,
      add_zero, sub_zero, hz]
    rw [roundDouble_sum_eval, roundDouble_diff_eval]
    simp only [ResourceAllocation.mk.injEq]
    refine ⟨max_eq_left (by norm_num), max_self 0, max_self 0⟩
  rw [heval]
  constructor
  · intro hcontra
    simp only [ResourceAllocation.mk.injEq, dblTenth] at hcontra
    have := hcontra.1
    norm_num at this
  · rfl

/-- The allocation invariant of spec section 8: every allocation dimension is
between 0 and the corresponding capability. -/
def WorkerInv (w : Worker) : Prop :=
  (0 ≤ w.allocation.allocated_cpus ∧ w.allocation.allocated_cpus ≤ w.capabilities.num_cpus) ∧
  (0 ≤ w.allocation.allocated_gpus ∧ w.allocation.allocated_gpus ≤ w.capabilities.num_gpus) ∧
  (0 ≤ w.allocation.allocated_memory_gb ∧
    w.allocation.allocated_memory_gb ≤ w.capabilities.memory_gb)

theorem applyAt_inv {ws : List Worker} {i : Nat} {f : Worker → Worker}
    (h : ∀ w ∈ ws, WorkerInv w)
    (hf : ∀ w, ws.get? i = some w → WorkerInv (f w)) :
    ∀ w ∈ applyAt ws i f, WorkerInv w := by
  unfold applyAt
  cases hg : ws.get? i with
  | none => exact h
  | some w0 =>
    intro w hw
    rcases List.mem_or_eq_of_mem_set hw with hmem | rfl
    · exact h w hmem
    · exact hf w0 hg

/-- Allocating a requirement the worker has capacity for keeps the invariant. -/
theorem allocate_inv {w : Worker} {req : ResourceRequirements}
    (hinv : WorkerInv w) (hcap : w.has_capacity req = true)
    (hc : 0 ≤ req.num_cpus) (hg : 0 ≤ req.num_gpus) (hm : 0 ≤ req.memory_gb) :
    WorkerInv { w with allocation := w.allocation.allocate req, state := WorkerState.Busy } := by
  obtain ⟨⟨c0, c1⟩, ⟨g0, g1⟩, ⟨m0, m1⟩⟩ := hinv
  simp only [Worker.has_capacity, Bool.and_eq_true, decide_eq_true_eq] at hcap
  obtain ⟨⟨hcc, hcg⟩, hcm⟩ := hcap
  simp only [WorkerInv, ResourceAllocation.allocate]
  refine ⟨⟨by linarith, by linarith⟩, ⟨by linarith, by linarith⟩, ⟨by linarith, by linarith⟩⟩

/-- Deallocating a non-negative requirement keeps the invariant (the clamp keeps
each dimension at least 0, and subtraction cannot exceed the capability). -/
theorem deallocate_inv {w : Worker} {req : ResourceRequirements}
    (hinv : WorkerInv w)
    (hc : 0 ≤ req.num_cpus) (hg : 0 ≤ req.num_gpus) (hm : 0 ≤ req.memory_gb) :
    WorkerInv { w with allocation := w.allocation.deallocate req, state := WorkerState.Idle } := by
  obtain ⟨⟨c0, c1⟩, ⟨g0, g1⟩, ⟨m0, m1⟩⟩ := hinv
  refine ⟨⟨le_max_right _ _, max_le (by linarith) (by linarith)⟩,
          ⟨le_max_right _ _, max_le (by linarith) (by linarith)⟩,
          ⟨le_max_right _ _, max_le (by linarith) (by linarith)⟩⟩

/-- Claim C5: for every pool satisfying the allocation invariant and every
non-negative task requirements, every observable point of the sequential
request lifecycle keeps `0 ≤ allocation.* ≤ capabilities.*` for every worker:
after selection + `allocate` (the state during send and receive), and after
`deallocate`. The upper bound after `allocate` holds because every selection
pass requires `has_capacity` of the selected worker; the lower bound after
`deallocate` holds because it clamps every dimension to at least 0. -/
theorem C5_allocation_within_bounds (p : Pool) (req : ResourceRequirements)
    (hc : 0 ≤ req.num_cpus) (hg : 0 ≤ req.num_gpus) (hm : 0 ≤ req.memory_gb)
    (hinv : ∀ w ∈ p.workers, WorkerInv w) :
    ∀ i p', beginTask p req = some (i, p') →
      (∀ w ∈ p'.workers, WorkerInv w) ∧
      (∀ w ∈ (finishTask p' i req).workers, WorkerInv w) := by
  intro i p' hbegin
  unfold beginTask at hbegin
  cases hfind : find_worker_with_resources p.workers p.next_idx req with
  | none => rw [hfind] at hbegin; exact absurd hbegin (by simp)
  | some ic =>
    obtain ⟨i0, c0⟩ := ic
    rw [hfind] at hbegin
    simp only [Option.some.injEq, Prod.mk.injEq] at hbegin
    obtain ⟨rfl, rfl⟩ := hbegin
    obtain ⟨w0, hw0, hcap0⟩ := find_worker_has_capacity hfind
    have hmid : ∀ w ∈ applyAt p.workers i0 (fun w =>
        { w with allocation := w.allocation.allocate req, state := WorkerState.Busy }),
        WorkerInv w := by
      refine applyAt_inv hinv ?_
      intro w hwget
      rw [hw0] at hwget
      cases hwget
      exact allocate_inv (hinv w0 (List.get?_mem hw0)) hcap0 hc hg hm
    refine ⟨hmid, ?_⟩
    unfold finishTask
    dsimp only
    refine applyAt_inv hmid ?_
    intro w hwget
    exact deallocate_inv (hmid w (List.get?_mem hwget)) hc hg hm

/-- Pool-A worker of the spec's GPU-affinity scenario: `(cpus=4, gpus=0, mem=8)`. -/
def poolA_worker : Worker := ⟨WorkerState.Idle, ⟨4, 0, 8⟩, ⟨0, 0, 0⟩, 0, 0, 0⟩

/-- Pool-B worker of the spec's GPU-affinity scenario: `(cpus=4, gpus=1, mem=8)`. -/
def poolB_worker : Worker := ⟨WorkerState.Idle, ⟨4, 1, 8⟩, ⟨0, 0, 0⟩, 0, 0, 0⟩

/-- The two-worker pool of the GPU-affinity scenario with a given cursor. -/
def affinityPool (cursor : Nat) : Pool := ⟨[poolA_worker, poolB_worker], cursor⟩

/-- Claim C3: starting from the fresh two-worker pool with cursor 0, a `(1,1,1)`
request selects the pool-B worker (index 1); after it completes, two successive
`(1,0,1)` requests (each completing before the next) select the pool-A worker
(index 0) first and the pool-B worker (index 1) second. Completed requests
restore the allocations exactly, so only the cursor differs between pools. -/
theorem C3_gpu_affinity_scenario :
    runRequest (affinityPool 0) ⟨1, 1, 1⟩ = some (1, affinityPool 0) ∧
    runRequest (affinityPool 0) ⟨1, 0, 1⟩ = some (0, affinityPool 1) ∧
    runRequest (affinityPool 1) ⟨1, 0, 1⟩ = some (1, affinityPool 0) := by
  refine ⟨?_, ?_, ?_⟩ <;>
    norm_num [runRequest, beginTask, finishTask, applyAt, affinityPool, poolA_worker,
      poolB_worker, find_worker_with_resources, scanFrom, profileOk, Worker.has_capacity,
      ResourceAllocation.allocate, ResourceAllocation.deallocate,
      List.range_succ, List.findSome?]

/-- The pool-A worker of the scenario right after `allocate ⟨1,0,1⟩` + `Busy`. -/
def busyA_worker : Worker := ⟨WorkerState.Busy, ⟨4, 0, 8⟩, ⟨1, 0, 1⟩, 0, 0, 0⟩

/-- Witness for C5: running the `(1,0,1)` request of the scenario, the
mid-request pool and the finished pool keep the invariant; instantiated at the
allocated pool-A worker. -/
theorem C5_allocation_within_bounds_witness : WorkerInv busyA_worker := by
  have hinv : ∀ w ∈ (affinityPool 0).workers, WorkerInv w := by
    intro w hw
    simp only [affinityPool, List.mem_cons, List.not_mem_nil, or_false] at hw
    rcases hw with rfl | rfl
    · norm_num [WorkerInv, poolA_worker]
    · norm_num [WorkerInv, poolB_worker]
  have hbegin : beginTask (affinityPool 0) ⟨1, 0, 1⟩ =
      some (0, ⟨[busyA_worker, poolB_worker], 1⟩) := by
    norm_num [beginTask, applyAt, affinityPool, poolA_worker, poolB_worker, busyA_worker,
      find_worker_with_resources, scanFrom, profileOk, Worker.has_capacity,
      ResourceAllocation.allocate, List.range_succ, List.findSome?]
  exact (C5_allocation_within_bounds (affinityPool 0) ⟨1, 0, 1⟩
    (by norm_num) (by norm_num) (by norm_num) hinv 0 _ hbegin).1
    busyA_worker (by simp)

/-! ## Recycler (src/crates/neutrino-core/src/orchestrator/mod.rs,
`Orchestrator::start_monitoring` and `recycle_worker_at_index`) -/

/-- `WorkerConfig` from config.rs: the three recycling thresholds. The tick
interval field plays no role in which workers a tick recycles. -/
structure WorkerConfig where
  max_tasks_per_worker : Nat
  max_memory_mb : Nat
  max_lifetime_secs : Nat
deriving DecidableEq

/-- Modelled from the spec: `Worker::should_recycle` (spec section 4.3) is
declared and called by the orchestrator but its body is not under src/. Per the
spec it is true if any of `tasks_completed ≥ max_tasks_per_worker`,
`current_memory_mb ≥ max_memory_mb`, `spawn_time.elapsed() ≥ max_lifetime_secs`
holds. -/
def Worker.should_recycle (w : Worker) (cfg : WorkerConfig) : Bool :=
  decide (cfg.max_tasks_per_worker ≤ w.tasks_completed) ||
  decide (cfg.max_memory_mb ≤ w.current_memory_mb) ||
  decide (cfg.max_lifetime_secs ≤ w.lifetime_secs)

/-- Modelled from the spec: `Worker::update_memory` (spec section 4.5 step 2,
"Update `current_memory_mb`") is called by the monitoring loop but its body is
not under src/. -/
def Worker.update_memory (w : Worker) (memory_mb : Nat) : Worker :=
  { w with current_memory_mb := memory_mb }

/-- The per-worker decision of one monitoring tick in `start_monitoring`:
`memory_mb` is the result of `memory::get_process_memory_mb` for this worker
(`none` models the `Err` branch, which logs and `continue`s, skipping the
recycle check). On a successful reading the memory is updated and the worker is
marked for recycling iff `should_recycle` holds and its state is `Idle`;
a busy worker that qualifies is deferred. -/
def tickMarks (w : Worker) (memory_mb : Option Nat) (cfg : WorkerConfig) : Bool :=
  match memory_mb with
  | none => false
  | some m => (w.update_memory m).should_recycle cfg && decide (w.state = WorkerState.Idle)

/-- The index list `workers_to_recycle` collected by one monitoring tick, given
the pool and the per-worker memory readings. -/
def workers_to_recycle (workers : List Worker) (mems : List (Option Nat))
    (cfg : WorkerConfig) : List Nat :=
  (List.range workers.length).filter fun idx =>
    match workers.get? idx, mems.get? idx with
    | some w, some mem => tickMarks w mem cfg
    | _, _ => false

/-- The workers a tick removes from the pool (each marked index is processed by
`recycle_worker_at_index`, which removes the worker at that index). -/
def recycledWorkers (workers : List Worker) (mems : List (Option Nat))
    (cfg : WorkerConfig) : List Worker :=
  (workers_to_recycle workers mems cfg).filterMap workers.get?

theorem mem_workers_to_recycle {workers : List Worker} {mems : List (Option Nat)}
    {cfg : WorkerConfig} {idx : Nat} :
    idx ∈ workers_to_recycle workers mems cfg ↔
      ∃ w m, workers.get? idx = some w ∧ mems.get? idx = some (some m) ∧
        (w.update_memory m).should_recycle cfg = true ∧ w.state = WorkerState.Idle := by
  unfold workers_to_recycle
  rw [List.mem_filter]
  constructor
  · rintro ⟨-, hmatch⟩
    cases hw : workers.get? idx with
    | none => rw [hw] at hmatch; simp at hmatch
    | some w =>
      cases hm : mems.get? idx with
      | none => rw [hw, hm] at hmatch; simp at hmatch
      | some mem =>
        rw [hw, hm] at hmatch
        cases mem with
        | none => simp [tickMarks] at hmatch
        | some m =>
          simp only [tickMarks, Bool.and_eq_true, decide_eq_true_eq] at hmatch
          exact ⟨w, m, rfl, rfl, hmatch.1, hmatch.2⟩
  · rintro ⟨w, m, hw, hm, hrec, hidle⟩
    have hlen : idx < workers.length := by
      by_contra hge
      rw [List.get?_eq_none.mpr (Nat.le_of_not_lt hge)] at hw
      exact absurd hw (by simp)
    refine ⟨List.mem_range.mpr hlen, ?_⟩
    rw [hw, hm]
    simp only [tickMarks, Bool.and_eq_true, decide_eq_true_eq]
    exact ⟨hrec, hidle⟩

/-- Claim C2: `should_recycle(cfg)` is true exactly when one of the three
thresholds is met (task count, memory, lifetime), and the recycler tick marks a
worker for rotation exactly when (its memory reading succeeded and)
`should_recycle` holds for the updated record — together with the `Idle` gate
of the monitoring loop. -/
theorem C2_should_recycle_predicate (w : Worker) (cfg : WorkerConfig)
    (workers : List Worker) (mems : List (Option Nat)) (idx : Nat) :
    (w.should_recycle cfg = true ↔
      (cfg.max_tasks_per_worker ≤ w.tasks_completed ∨
       cfg.max_memory_mb ≤ w.current_memory_mb ∨
       cfg.max_lifetime_secs ≤ w.lifetime_secs)) ∧
    (idx ∈ workers_to_recycle workers mems cfg ↔
      ∃ w' m, workers.get? idx = some w' ∧ mems.get? idx = some (some m) ∧
        (w'.update_memory m).should_recycle cfg = true ∧ w'.state = WorkerState.Idle) := by
  constructor
  · simp [Worker.should_recycle, or_assoc]
  · exact mem_workers_to_recycle

/-- Claim C4: on every recycler tick, a worker is marked for recycling only if
`should_recycle` holds (after the memory update) and it is `Idle`; every worker
the tick removes is `Idle`, so the recycler never removes a `Busy` worker; and
a qualifying worker that is observed `Idle` on a (later) tick is marked on that
tick. -/
theorem C4_recycler_spares_busy_workers (workers : List Worker)
    (mems : List (Option Nat)) (cfg : WorkerConfig) :
    (∀ w ∈ recycledWorkers workers mems cfg, w.state = WorkerState.Idle) ∧
    (∀ idx ∈ workers_to_recycle workers mems cfg,
      ∃ w m, workers.get? idx = some w ∧ mems.get? idx = some (some m) ∧
        (w.update_memory m).should_recycle cfg = true ∧ w.state = WorkerState.Idle) ∧
    (∀ idx w, workers.get? idx = some w → w.state ≠ WorkerState.Idle →
      idx ∉ workers_to_recycle workers mems cfg) ∧
    (∀ idx w m, workers.get? idx = some w → mems.get? idx = some (some m) →
      (w.update_memory m).should_recycle cfg = true → w.state = WorkerState.Idle →
      idx ∈ workers_to_recycle workers mems cfg) := by
  refine ⟨?_, ?_, ?_, ?_⟩
  · intro w hw
    unfold recycledWorkers at hw
    obtain ⟨idx, hidx, hget⟩ := List.mem_filterMap.mp hw
    obtain ⟨w', m, hw', _, _, hidle⟩ := mem_workers_to_recycle.mp hidx
    rw [hw'] at hget
    cases hget
    exact hidle
  · intro idx hidx
    exact mem_workers_to_recycle.mp hidx
  · intro idx w hget hstate hmem
    obtain ⟨w', m, hw', _, _, hidle⟩ := mem_workers_to_recycle.mp hmem
    rw [hget] at hw'
    cases hw'
    exact hstate hidle
  · intro idx w m hget hm hrec hidle
    exact mem_workers_to_recycle.mpr ⟨w, m, hget, hm, hrec, hidle⟩

/-- Witness for C4: a tick over a pool with a busy qualifying worker and an
idle qualifying worker marks exactly the idle one. -/
theorem C4_recycler_spares_busy_workers_witness :
    (⟨WorkerState.Busy, ⟨1, 0, 1⟩, ⟨0, 0, 0⟩, 9, 0, 0⟩ : Worker).state ≠ WorkerState.Idle ∧
    0 ∉ workers_to_recycle
        [⟨WorkerState.Busy, ⟨1, 0, 1⟩, ⟨0, 0, 0⟩, 9, 0, 0⟩,
         ⟨WorkerState.Idle, ⟨1, 0, 1⟩, ⟨0, 0, 0⟩, 9, 0, 0⟩]
        [some 50, some 50] ⟨5, 100, 3600⟩ ∧
    1 ∈ workers_to_recycle
        [⟨WorkerState.Busy, ⟨1, 0, 1⟩, ⟨0, 0, 0⟩, 9, 0, 0⟩,
         ⟨WorkerState.Idle, ⟨1, 0, 1⟩, ⟨0, 0, 0⟩, 9, 0, 0⟩]
        [some 50, some 50] ⟨5, 100, 3600⟩ :=
  ⟨by decide,
   (C4_recycler_spares_busy_workers _ _ _).2.2.1 0 _ rfl (by decide),
   (C4_recycler_spares_busy_workers _ _ _).2.2.2 1 _ 50 rfl rfl (by decide) rfl⟩

/-! ## Gateway backend pool (src/crates/neutrino-gateway/src/backend_pool.rs) -/

/-- `Backend` from backend_pool.rs. The `url` and `last_updated` fields play no
role in the verified claims and are omitted. -/
structure Backend where
  available_cpus : ℚ
  available_gpus : ℚ
  available_memory_gb : ℚ
  total_cpus : ℚ
  total_gpus : ℚ
  total_memory_gb : ℚ
  healthy : Bool
  error_count : Nat
deriving DecidableEq

/-- `Backend::new` from backend_pool.rs: all capacities 0, `healthy = false`,
`error_count = 0`. -/
def Backend.new : Backend := ⟨0, 0, 0, 0, 0, 0, false, 0⟩

/-- `Backend::has_capacity` from backend_pool.rs: healthy and every available
dimension at least the requirement. -/
def Backend.has_capacity (b : Backend) (cpus gpus memory_gb : ℚ) : Bool :=
  b.healthy && decide (cpus ≤ b.available_cpus) && decide (gpus ≤ b.available_gpus) &&
  decide (memory_gb ≤ b.available_memory_gb)

/-- `Backend::utilization` from backend_pool.rs: 1 when both totals are zero
("no capacity"); otherwise the maximum over the CPU and GPU dimensions of
`1 - available/total`, where a dimension with non-positive total contributes 0. -/
def Backend.utilization (b : Backend) : ℚ :=
  if b.total_cpus = 0 ∧ b.total_gpus = 0 then 1
  else
    max (if 0 < b.total_cpus then 1 - b.available_cpus / b.total_cpus else 0)
        (if 0 < b.total_gpus then 1 - b.available_gpus / b.total_gpus else 0)

/-- `ResourceAmounts` from backend_pool.rs (the `/capacity` JSON shape). -/
structure ResourceAmounts where
  cpus : ℚ
  gpus : ℚ
  memory_gb : ℚ
deriving DecidableEq

/-- `CapacityResponse` from backend_pool.rs. -/
structure CapacityResponse where
  available : ResourceAmounts
  total : ResourceAmounts
deriving DecidableEq

/-- One capacity-poll update of `BackendPool::start_monitoring` for one backend:
`some capacity` models the `Ok` branch (record updated, `healthy = true`,
`error_count = 0`); `none` models the `Err` branch (`error_count` incremented
and, at 3 or more, `healthy = false`). -/
def pollStep (b : Backend) (result : Option CapacityResponse) : Backend :=
  match result with
  | some capacity =>
    { b with
      available_cpus := capacity.available.cpus
      available_gpus := capacity.available.gpus
      available_memory_gb := capacity.available.memory_gb
      total_cpus := capacity.total.cpus
      total_gpus := capacity.total.gpus
      total_memory_gb := capacity.total.memory_gb
      healthy := true
      error_count := 0 }
  | none =>
    { b with
      error_count := b.error_count + 1
      healthy := if 3 ≤ b.error_count + 1 then false else b.healthy }

/-- `k` consecutive failed polls. -/
def pollFailN : Nat → Backend → Backend
  | 0, b => b
  | k + 1, b => pollFailN k (pollStep b none)

theorem pollFailN_error_count : ∀ (k : Nat) (b : Backend),
    (pollFailN k b).error_count = b.error_count + k := by
  intro k
  induction k with
  | zero => intro b; simp [pollFailN]
  | succ k ih =>
    intro b
    rw [pollFailN, ih]
    simp only [pollStep]
    omega

theorem pollFailN_healthy : ∀ (k : Nat) (b : Backend),
    (pollFailN k b).healthy =
      if 1 ≤ k ∧ 3 ≤ b.error_count + k then false else b.healthy := by
  intro k
  induction k with
  | zero => intro b; simp [pollFailN]
  | succ k ih =>
    intro b
    rw [pollFailN, ih]
    simp only [pollStep]
    split_ifs <;> first | rfl | omega

/-- Claim C7: each capacity-poll failure increments `error_count`; a single
successful poll sets `healthy = true` and resets `error_count` to 0; and from a
healthy backend with no outstanding errors, `k` consecutive failures leave the
backend healthy exactly when `k < 3` (so it stays healthy after failures 1 and
2 and is unhealthy from the third consecutive failure on). -/
theorem C7_backend_health_transitions (b : Backend) (capacity : CapacityResponse)
    (k : Nat) (hb : b.healthy = true) (he : b.error_count = 0) :
    ((pollStep b none).error_count = b.error_count + 1) ∧
    ((pollStep b (some capacity)).healthy = true ∧
      (pollStep b (some capacity)).error_count = 0) ∧
    ((pollFailN k b).error_count = k) ∧
    ((pollFailN k b).healthy = true ↔ k < 3) := by
  refine ⟨rfl, ⟨rfl, rfl⟩, ?_, ?_⟩
  · rw [pollFailN_error_count, he]
    omega
  · rw [pollFailN_healthy, he]
    by_cases h : 1 ≤ k ∧ 3 ≤ 0 + k
    · rw [if_pos h]
      simp only [Bool.false_eq_true, false_iff]
      omega
    · rw [if_neg h, hb]
      simp only [true_iff]
      omega

/-- Witness for C7: a fresh healthy backend is unhealthy after exactly 3
consecutive failures. -/
theorem C7_backend_health_transitions_witness :
    ((pollFailN 3 (⟨1, 1, 1, 1, 1, 1, true, 0⟩ : Backend)).healthy = true ↔ 3 < 3) :=
  (C7_backend_health_transitions ⟨1, 1, 1, 1, 1, 1, true, 0⟩
    ⟨⟨1, 1, 1⟩, ⟨1, 1, 1⟩⟩ 3 rfl rfl).2.2.2

/-- A stable insertion into a list sorted by `utilization`: an element goes in
front of the first element whose utilization is at least as large. This models
the stable `sort_by(utilization partial_cmp)` of `find_backend_with_resources`. -/
def insertByUtil (a : Backend) : List Backend → List Backend
  | [] => [a]
  | b :: l =>
    if a.utilization ≤ b.utilization then a :: b :: l else b :: insertByUtil a l

/-- Stable sort of the candidate list by ascending utilization. -/
def sortByUtil : List Backend → List Backend
  | [] => []
  | a :: l => insertByUtil a (sortByUtil l)

/-- `BackendPool::find_backend_with_resources` from backend_pool.rs: filter to
backends with capacity, return `none` when none qualifies, otherwise the head of
the stable sort by ascending utilization (the source sorts the candidate vector
stably and returns its first element). -/
def find_backend_with_resources (backends : List Backend)
    (cpus gpus memory_gb : ℚ) : Option Backend :=
  let candidates := backends.filter fun b => b.has_capacity cpus gpus memory_gb
  if candidates.isEmpty then none
  else (sortByUtil candidates).head?

/-- The head of the stable utilization sort of a non-empty list is its first
minimizer: it splits the list into a strictly-more-utilized prefix, itself, and
a suffix, and it attains the minimum utilization. -/
theorem sortByUtil_head (l : List Backend) (hne : l ≠ []) :
    ∃ b pre post, (sortByUtil l).head? = some b ∧ l = pre ++ b :: post ∧
      (∀ x ∈ pre, b.utilization < x.utilization) ∧
      (∀ x ∈ l, b.utilization ≤ x.utilization) := by
  induction l with
  | nil => exact absurd rfl hne
  | cons a t ih =>
    cases ht : t with
    | nil =>
      subst ht
      refine ⟨a, [], [], rfl, rfl, by simp, ?_⟩
      intro x hx
      rw [List.mem_singleton] at hx
      subst hx
      exact le_refl _
    | cons b t' =>
      subst ht
      obtain ⟨h', pre', post', hhead, hdecomp, hpre, hmin⟩ := ih (by simp)
      cases hs : sortByUtil (b :: t') with
      | nil => rw [hs] at hhead; simp at hhead
      | cons h0 rest =>
        rw [hs] at hhead
        simp only [List.head?_cons, Option.some.injEq] at hhead
        subst hhead
        by_cases hle : a.utilization ≤ h0.utilization
        · refine ⟨a, [], b :: t', ?_, rfl, by simp, ?_⟩
          · show (insertByUtil a (sortByUtil (b :: t'))).head? = some a
            rw [hs]
            simp only [insertByUtil, if_pos hle, List.head?_cons]
          · intro x hx
            rcases List.mem_cons.mp hx with rfl | hx
            · exact le_refl _
            · exact le_trans hle (hmin x hx)
        · refine ⟨h0, a :: pre', post', ?_, ?_, ?_, ?_⟩
          · show (insertByUtil a (sortByUtil (b :: t'))).head? = some h0
            rw [hs]
            simp only [insertByUtil, if_neg hle, List.head?_cons]
          · rw [List.cons_append, hdecomp]
          · intro x hx
            rcases List.mem_cons.mp hx with rfl | hx
            · exact not_le.mp hle
            · exact hpre x hx
          · intro x hx
            rcases List.mem_cons.mp hx with rfl | hx
            · exact le_of_lt (not_le.mp hle)
            · exact hmin x hx

/-- Full characterization of the backend selector: `none` exactly when no
backend qualifies, and a returned backend is the first candidate (in the
backends' stable order) attaining the minimum utilization. -/
theorem find_backend_spec (backends : List Backend) (cpus gpus memory_gb : ℚ) :
    (find_backend_with_resources backends cpus gpus memory_gb = none ↔
      backends.filter (fun b => b.has_capacity cpus gpus memory_gb) = []) ∧
    (∀ b, find_backend_with_resources backends cpus gpus memory_gb = some b →
      ∃ pre post,
        backends.filter (fun b => b.has_capacity cpus gpus memory_gb) =
          pre ++ b :: post ∧
        (∀ x ∈ pre, b.utilization < x.utilization) ∧
        (∀ x ∈ backends.filter (fun b => b.has_capacity cpus gpus memory_gb),
          b.utilization ≤ x.utilization)) := by
  unfold find_backend_with_resources
  by_cases hemp :
      (backends.filter fun b => b.has_capacity cpus gpus memory_gb).isEmpty
  · rw [if_pos hemp]
    simp only [List.isEmpty_iff] at hemp
    refine ⟨by simp [hemp], ?_⟩
    intro b hb
    exact absurd hb (by simp)
  · rw [if_neg hemp]
    simp only [List.isEmpty_iff] at hemp
    obtain ⟨b0, pre, post, hhead, hdecomp, hpre, hmin⟩ :=
      sortByUtil_head (backends.filter fun b => b.has_capacity cpus gpus memory_gb) hemp
    constructor
    · rw [hhead]
      constructor
      · intro h; exact absurd h (by simp)
      · intro h; exact absurd h hemp
    · intro b hb
      rw [hhead] at hb
      simp only [Option.some.injEq] at hb
      subst hb
      exact ⟨pre, post, hdecomp, hpre, hmin⟩

/-- The utilization formula exactly as claim C8 words it: each dimension with a
zero total contributes 0 to the maximum, with no special case when both totals
are zero. Stated only for comparison with `Backend.utilization` of the source. -/
def claimUtil (b : Backend) : ℚ :=
  max (if b.total_cpus = 0 then 0 else 1 - b.available_cpus / b.total_cpus)
      (if b.total_gpus = 0 then 0 else 1 - b.available_gpus / b.total_gpus)

/-- A healthy backend with all-zero capacities (claim-utilization 0,
source utilization 1). -/
def bzero : Backend := ⟨0, 0, 0, 0, 0, 0, true, 0⟩

/-- A healthy backend at 50% CPU utilization under both formulas. -/
def bhalf : Backend := ⟨1, 0, 1, 2, 0, 2, true, 0⟩

/-- Counterexample to claim C8 as stated: with requirements `(0,0,0)` both
backends qualify, and the claim's utilization formula ranks `bzero` (0) strictly
below `bhalf` (1/2), so the claim requires `bzero` to be returned; the code
gives a backend with both totals zero utilization 1 (not 0) and returns
`bhalf`. -/
theorem C8_least_utilized_counterexample :
    (([bzero, bhalf].filter fun b => b.has_capacity 0 0 0) = [bzero, bhalf]) ∧
    claimUtil bzero < claimUtil bhalf ∧
    bhalf ≠ bzero ∧
    find_backend_with_resources [bzero, bhalf] 0 0 0 = some bhalf := by
  refine ⟨?_, ?_, ?_, ?_⟩
  · norm_num [bzero, bhalf, Backend.has_capacity, List.filter]
  · norm_num [claimUtil, bzero, bhalf]
  · norm_num [bzero, bhalf]
  · norm_num [find_backend_with_resources, bzero, bhalf, Backend.has_capacity,
      List.filter, sortByUtil, insertByUtil, Backend.utilization]

/-- Claim C8 as amended: `find_backend_with_resources` filters to healthy
backends whose available resources dominate the requirements, returns `none`
when that set is empty, and otherwise returns the candidate minimizing the
source's utilization — `max(1 − avail_cpus/total_cpus, 1 − avail_gpus/total_gpus)`
with a zero-total dimension contributing 0, except that a backend with both
totals zero has utilization 1 — with ties broken by the backends' stable
order. -/
theorem C8_least_utilized_amended (backends : List Backend)
    (cpus gpus memory_gb : ℚ) :
    (find_backend_with_resources backends cpus gpus memory_gb = none ↔
      backends.filter (fun b => b.has_capacity cpus gpus memory_gb) = []) ∧
    (∀ b, find_backend_with_resources backends cpus gpus memory_gb = some b →
      ∃ pre post,
        backends.filter (fun b => b.has_capacity cpus gpus memory_gb) =
          pre ++ b :: post ∧
        (∀ x ∈ pre, b.utilization < x.utilization) ∧
        (∀ x ∈ backends.filter (fun b => b.has_capacity cpus gpus memory_gb),
          b.utilization ≤ x.utilization)) :=
  find_backend_spec backends cpus gpus memory_gb

/-- Witness for C8 (amended): on the two-backend counterexample pool the
selector returns `bhalf`, and the characterization instantiates to a concrete
decomposition. -/
theorem C8_least_utilized_amended_witness :
    ∃ pre post,
      ([bzero, bhalf].filter fun b => b.has_capacity 0 0 0) = pre ++ bhalf :: post ∧
      (∀ x ∈ pre, bhalf.utilization < x.utilization) ∧
      (∀ x ∈ [bzero, bhalf].filter fun b => b.has_capacity 0 0 0,
        bhalf.utilization ≤ x.utilization) :=
  (C8_least_utilized_amended [bzero, bhalf] 0 0 0).2 bhalf
    (by norm_num [find_backend_with_resources, bzero, bhalf, Backend.has_capacity,
      List.filter, sortByUtil, insertByUtil, Backend.utilization])

/-- Claim C10: a newly inserted backend record starts with `healthy = false` and
all capacities 0, failed polls never make it healthy, and
`find_backend_with_resources` never returns a backend that has not had at least
one successful poll (every returned backend passed `has_capacity`, which
requires `healthy`). -/
theorem C10_unpolled_backend_never_selected (k : Nat) (backends : List Backend)
    (cpus gpus memory_gb : ℚ) :
    Backend.new.healthy = false ∧
    Backend.new.available_cpus = 0 ∧ Backend.new.available_gpus = 0 ∧
    Backend.new.available_memory_gb = 0 ∧ Backend.new.total_cpus = 0 ∧
    Backend.new.total_gpus = 0 ∧ Backend.new.total_memory_gb = 0 ∧
    (pollFailN k Backend.new).healthy = false ∧
    find_backend_with_resources backends cpus gpus memory_gb ≠
      some (pollFailN k Backend.new) := by
  have hunhealthy : (pollFailN k Backend.new).healthy = false := by
    rw [pollFailN_healthy]
    split_ifs with h
    · rfl
    · rfl
  refine ⟨rfl, rfl, rfl, rfl, rfl, rfl, rfl, hunhealthy, ?_⟩
  intro hfind
  obtain ⟨pre, post, hdecomp, -, -⟩ :=
    (find_backend_spec backends cpus gpus memory_gb).2 _ hfind
  have hmem : pollFailN k Backend.new ∈
      backends.filter (fun b => b.has_capacity cpus gpus memory_gb) := by
    rw [hdecomp]
    exact List.mem_append_right _ (List.mem_cons_self _ _)
  have hcap := (List.mem_filter.mp hmem).2
  simp only [Backend.has_capacity, Bool.and_eq_true] at hcap
  rw [hunhealthy] at hcap
  exact absurd hcap.1.1.1 (by simp)

/-! ## Protocol codec (src/crates/neutrino-core/src/protocol/mod.rs)

Modelled from the spec: `Message::to_bytes`/`from_bytes` delegate to the
`rmp_serde` MessagePack codec, whose code is not under src/. Per spec sections
4.1 and 6, the payload is "a self-describing binary map-array encoding
(MessagePack-compatible) carrying a tagged-variant message" whose "tag
discriminator is a named variant", and the `args`/`result` trees are
`Nil | Bool | Int | Float | String | Binary | Array | Map` values (plus the
extension leaf of the binary value model). The model below implements such a
MessagePack encoding at the byte level, using the fixed-width MessagePack
formats (str32 / bin32 / array32 / map32 / ext32 / int64 / uint64 / f32 / f64),
with a tagged variant encoded as a one-entry map from the variant name to the
array of its fields. Bytes are `Nat` (< 256 by construction of the encoder);
`f64`/`f32` fields are carried as their IEEE bit patterns, so that structural
equality of the model corresponds to bit-level equality of the floats. -/

mutual
inductive MpValue where
  | nil
  | bool (b : Bool)
  | int (i : Int)
  | f32 (bits : Nat)
  | f64 (bits : Nat)
  | str (s : List Nat)
  | bin (d : List Nat)
  | ext (t : Int) (d : List Nat)
  | array (vs : MpList)
  | map (kvs : MpPairs)
inductive MpList where
  | nil
  | cons (v : MpValue) (vs : MpList)
inductive MpPairs where
  | nil
  | cons (k : MpValue) (v : MpValue) (kvs : MpPairs)
end

/-- Number of elements of an `MpList`. -/
def MpList.length : MpList → Nat
  | MpList.nil => 0
  | MpList.cons _ vs => vs.length + 1

/-- Number of entries of an `MpPairs`. -/
def MpPairs.length : MpPairs → Nat
  | MpPairs.nil => 0
  | MpPairs.cons _ _ kvs => kvs.length + 1

/-- Big-endian bytes of `n`, exactly `k` bytes (most significant first). -/
def beBytes : Nat → Nat → List Nat
  | 0, _ => []
  | k + 1, n => beBytes k (n / 256) ++ [n % 256]

/-- Value of a big-endian byte list. -/
def beVal (bs : List Nat) : Nat :=
  bs.foldl (fun acc b => acc * 256 + b) 0

/-- Read exactly `k` bytes from the front of `bs`. -/
def readN (k : Nat) (bs : List Nat) : Option (List Nat × List Nat) :=
  if k ≤ bs.length then some (bs.take k, bs.drop k) else none

theorem beBytes_length : ∀ (k n : Nat), (beBytes k n).length = k := by
  intro k
  induction k with
  | zero => intro n; rfl
  | succ k ih =>
    intro n
    simp [beBytes, ih]

theorem beVal_append_singleton (l : List Nat) (b : Nat) :
    beVal (l ++ [b]) = beVal l * 256 + b := by
  simp [beVal, List.foldl_append]

theorem beVal_beBytes : ∀ (k n : Nat), n < 256 ^ k → beVal (beBytes k n) = n := by
  intro k
  induction k with
  | zero =>
    intro n hn
    interval_cases n
    rfl
  | succ k ih =>
    intro n hn
    rw [beBytes, beVal_append_singleton, ih (n / 256) ?_]
    · omega
    · have : 256 ^ (k + 1) = 256 ^ k * 256 := pow_succ 256 k
      omega

theorem readN_exact (s rest : List Nat) : readN s.length (s ++ rest) = some (s, rest) := by
  unfold readN
  rw [if_pos (by simp), List.take_left, List.drop_left]

mutual
/-- MessagePack encoding of one value (fixed-width formats). -/
def encVal : MpValue → List Nat
  | MpValue.nil => [0xc0]
  | MpValue.bool false => [0xc2]
  | MpValue.bool true => [0xc3]
  | MpValue.int i =>
    if 0 ≤ i then 0xcf :: beBytes 8 i.toNat
    else 0xd3 :: beBytes 8 (i + 2 ^ 64).toNat
  | MpValue.f32 bits => 0xca :: beBytes 4 bits
  | MpValue.f64 bits => 0xcb :: beBytes 8 bits
  | MpValue.str s => 0xdb :: (beBytes 4 s.length ++ s)
  | MpValue.bin d => 0xc6 :: (beBytes 4 d.length ++ d)
  | MpValue.ext t d => 0xc9 :: (beBytes 4 d.length ++ ((t % 256).toNat :: d))
  | MpValue.array vs => 0xdd :: (beBytes 4 vs.length ++ encList vs)
  | MpValue.map kvs => 0xdf :: (beBytes 4 kvs.length ++ encPairs kvs)
/-- Concatenated encodings of the elements of an array. -/
def encList : MpList → List Nat
  | MpList.nil => []
  | MpList.cons v vs => encVal v ++ encList vs
/-- Concatenated key/value encodings of the entries of a map. -/
def encPairs : MpPairs → List Nat
  | MpPairs.nil => []
  | MpPairs.cons k v kvs => encVal k ++ (encVal v ++ encPairs kvs)
end

mutual
/-- Wellformedness of a value for the wire: integers in the `i64`/`u64` union
range, float bit patterns in range, lengths below `2^32`, extension types in
`i8` range. -/
def wfVal : MpValue → Bool
  | MpValue.nil => true
  | MpValue.bool _ => true
  | MpValue.int i => decide (-(2 ^ 63) ≤ i) && decide (i < 2 ^ 64)
  | MpValue.f32 bits => decide (bits < 2 ^ 32)
  | MpValue.f64 bits => decide (bits < 2 ^ 64)
  | MpValue.str s => decide (s.length < 2 ^ 32)
  | MpValue.bin d => decide (d.length < 2 ^ 32)
  | MpValue.ext t d => decide (-128 ≤ t) && decide (t < 128) && decide (d.length < 2 ^ 32)
  | MpValue.array vs => decide (vs.length < 2 ^ 32) && wfList vs
  | MpValue.map kvs => decide (kvs.length < 2 ^ 32) && wfPairs kvs
def wfList : MpList → Bool
  | MpList.nil => true
  | MpList.cons v vs => wfVal v && wfList vs
def wfPairs : MpPairs → Bool
  | MpPairs.nil => true
  | MpPairs.cons k v kvs => wfVal k && (wfVal v && wfPairs kvs)
end

mutual
/-- Nesting depth of a value; drives the decoder fuel. -/
def depthVal : MpValue → Nat
  | MpValue.array vs => depthList vs + 1
  | MpValue.map kvs => depthPairs kvs + 1
  | _ => 1
def depthList : MpList → Nat
  | MpList.nil => 0
  | MpList.cons v vs => max (depthVal v) (depthList vs)
def depthPairs : MpPairs → Nat
  | MpPairs.nil => 0
  | MpPairs.cons k v kvs => max (depthVal k) (max (depthVal v) (depthPairs kvs))
end

mutual
/-- MessagePack decoder for the formats the encoder emits. `fuel` bounds the
nesting depth; it decreases at every array/map descent. -/
def decVal : Nat → List Nat → Option (MpValue × List Nat)
  | 0, _ => none
  | _ + 1, [] => none
  | fuel + 1, b :: bs =>
    if b = 0xc0 then some (MpValue.nil, bs)
    else if b = 0xc2 then some (MpValue.bool false, bs)
    else if b = 0xc3 then some (MpValue.bool true, bs)
    else if b = 0xcf then
      match readN 8 bs with
      | some (s, rest) => some (MpValue.int (Int.ofNat (beVal s)), rest)
      | none => none
    else if b = 0xd3 then
      match readN 8 bs with
      | some (s, rest) =>
        some (MpValue.int (if beVal s < 2 ^ 63 then (beVal s : Int)
          else (beVal s : Int) - 2 ^ 64), rest)
      | none => none
    else if b = 0xca then
      match readN 4 bs with
      | some (s, rest) => some (MpValue.f32 (beVal s), rest)
      | none => none
    else if b = 0xcb then
      match readN 8 bs with
      | some (s, rest) => some (MpValue.f64 (beVal s), rest)
      | none => none
    else if b = 0xdb then
      match readN 4 bs with
      | some (lb, r1) =>
        match readN (beVal lb) r1 with
        | some (s, rest) => some (MpValue.str s, rest)
        | none => none
      | none => none
    else if b = 0xc6 then
      match readN 4 bs with
      | some (lb, r1) =>
        match readN (beVal lb) r1 with
        | some (d, rest) => some (MpValue.bin d, rest)
        | none => none
      | none => none
    else if b = 0xc9 then
      match readN 4 bs with
      | some (lb, r1) =>
        match r1 with
        | [] => none
        | t :: r2 =>
          match readN (beVal lb) r2 with
          | some (d, rest) =>
            some (MpValue.ext (if t < 128 then (t : Int) else (t : Int) - 256) d, rest)
          | none => none
      | none => none
    else if b = 0xdd then
      match readN 4 bs with
      | some (lb, r1) =>
        match decList fuel (beVal lb) r1 with
        | some (vs, rest) => some (MpValue.array vs, rest)
        | none => none
      | none => none
    else if b = 0xdf then
      match readN 4 bs with
      | some (lb, r1) =>
        match decPairs fuel (beVal lb) r1 with
        | some (kvs, rest) => some (MpValue.map kvs, rest)
        | none => none
      | none => none
    else none
termination_by fuel bs => (fuel, 0)
/-- Decode exactly `n` consecutive values. -/
def decList : Nat → Nat → List Nat → Option (MpList × List Nat)
  | _, 0, bs => some (MpList.nil, bs)
  | fuel, n + 1, bs =>
    match decVal fuel bs with
    | some (v, r1) =>
      match decList fuel n r1 with
      | some (vs, rest) => some (MpList.cons v vs, rest)
      | none => none
    | none => none
termination_by fuel n bs => (fuel, n + 1)
/-- Decode exactly `n` consecutive key/value pairs. -/
def decPairs : Nat → Nat → List Nat → Option (MpPairs × List Nat)
  | _, 0, bs => some (MpPairs.nil, bs)
  | fuel, n + 1, bs =>
    match decVal fuel bs with
    | some (k, r1) =>
      match decVal fuel r1 with
      | some (v, r2) =>
        match decPairs fuel n r2 with
        | some (kvs, rest) => some (MpPairs.cons k v kvs, rest)
        | none => none
      | none => none
    | none => none
termination_by fuel n bs => (fuel, n + 1)
end

theorem readN_beBytes (k n : Nat) (rest : List Nat) :
    readN k (beBytes k n ++ rest) = some (beBytes k n, rest) := by
  have h := readN_exact (beBytes k n) rest
  rwa [beBytes_length] at h

theorem beVal_beBytes4 (n : Nat) (h : n < 2 ^ 32) : beVal (beBytes 4 n) = n :=
  beVal_beBytes 4 n (lt_of_lt_of_eq h (by norm_num))

theorem beVal_beBytes8 (n : Nat) (h : n < 2 ^ 64) : beVal (beBytes 8 n) = n :=
  beVal_beBytes 8 n (lt_of_lt_of_eq h (by norm_num))

theorem decVal_dispatch_nil (f : Nat) (rest : List Nat) :
    decVal (f + 1) (0xc0 :: rest) = some (MpValue.nil, rest) := by
  simp only [decVal]
  norm_num

theorem decVal_dispatch_false (f : Nat) (rest : List Nat) :
    decVal (f + 1) (0xc2 :: rest) = some (MpValue.bool false, rest) := by
  simp only [decVal]
  norm_num

theorem decVal_dispatch_true (f : Nat) (rest : List Nat) :
    decVal (f + 1) (0xc3 :: rest) = some (MpValue.bool true, rest) := by
  simp only [decVal]
  norm_num

theorem decVal_dispatch_uint (f n : Nat) (rest : List Nat) (h : n < 2 ^ 64) :
    decVal (f + 1) (0xcf :: (beBytes 8 n ++ rest)) = some (MpValue.int (n : Int), rest) := by
  simp only [decVal]
  norm_num
  rw [readN_beBytes]
  dsimp only
  rw [beVal_beBytes8 _ h]

theorem decVal_dispatch_negint (f n : Nat) (rest : List Nat)
    (h1 : 2 ^ 63 ≤ n) (h2 : n < 2 ^ 64) :
    decVal (f + 1) (0xd3 :: (beBytes 8 n ++ rest)) =
      some (MpValue.int ((n : Int) - 2 ^ 64), rest) := by
  simp only [decVal]
  norm_num
  rw [readN_beBytes]
  dsimp only
  rw [beVal_beBytes8 _ h2, if_neg (by omega)]

theorem decVal_dispatch_f32 (f n : Nat) (rest : List Nat) (h : n < 2 ^ 32) :
    decVal (f + 1) (0xca :: (beBytes 4 n ++ rest)) = some (MpValue.f32 n, rest) := by
  simp only [decVal]
  norm_num
  rw [readN_beBytes]
  dsimp only
  rw [beVal_beBytes4 _ h]

theorem decVal_dispatch_f64 (f n : Nat) (rest : List Nat) (h : n < 2 ^ 64) :
    decVal (f + 1) (0xcb :: (beBytes 8 n ++ rest)) = some (MpValue.f64 n, rest) := by
  simp only [decVal]
  norm_num
  rw [readN_beBytes]
  dsimp only
  rw [beVal_beBytes8 _ h]

theorem decVal_dispatch_str (f : Nat) (s rest : List Nat) (h : s.length < 2 ^ 32) :
    decVal (f + 1) (0xdb :: (beBytes 4 s.length ++ (s ++ rest))) =
      some (MpValue.str s, rest) := by
  simp only [decVal]
  norm_num
  rw [readN_beBytes]
  dsimp only
  rw [beVal_beBytes4 _ h, readN_exact]

theorem decVal_dispatch_bin (f : Nat) (d rest : List Nat) (h : d.length < 2 ^ 32) :
    decVal (f + 1) (0xc6 :: (beBytes 4 d.length ++ (d ++ rest))) =
      some (MpValue.bin d, rest) := by
  simp only [decVal]
  norm_num
  rw [readN_beBytes]
  dsimp only
  rw [beVal_beBytes4 _ h, readN_exact]

theorem decVal_dispatch_ext (f t : Nat) (d rest : List Nat) (h : d.length < 2 ^ 32) :
    decVal (f + 1) (0xc9 :: (beBytes 4 d.length ++ (t :: (d ++ rest)))) =
      some (MpValue.ext (if t < 128 then (t : Int) else (t : Int) - 256) d, rest) := by
  simp only [decVal]
  norm_num
  rw [readN_beBytes]
  dsimp only
  rw [beVal_beBytes4 _ h, readN_exact]

theorem decVal_dispatch_array (f n : Nat) (X rest : List Nat) (vs : MpList)
    (h : n < 2 ^ 32) (hdec : decList f n (X ++ rest) = some (vs, rest)) :
    decVal (f + 1) (0xdd :: (beBytes 4 n ++ (X ++ rest))) =
      some (MpValue.array vs, rest) := by
  simp only [decVal]
  norm_num
  rw [readN_beBytes]
  dsimp only
  rw [beVal_beBytes4 _ h, hdec]

theorem decVal_dispatch_map (f n : Nat) (X rest : List Nat) (kvs : MpPairs)
    (h : n < 2 ^ 32) (hdec : decPairs f n (X ++ rest) = some (kvs, rest)) :
    decVal (f + 1) (0xdf :: (beBytes 4 n ++ (X ++ rest))) =
      some (MpValue.map kvs, rest) := by
  simp only [decVal]
  norm_num
  rw [readN_beBytes]
  dsimp only
  rw [beVal_beBytes4 _ h, hdec]

theorem depthVal_pos (v : MpValue) : 1 ≤ depthVal v := by
  cases v <;> simp [depthVal]

mutual
/-- Decoding inverts encoding for every wellformed value, at any fuel at least
the value's depth, leaving the rest of the input untouched. -/
theorem decVal_encVal (v : MpValue) : ∀ (fuel : Nat) (rest : List Nat),
    wfVal v = true → depthVal v ≤ fuel →
    decVal fuel (encVal v ++ rest) = some (v, rest) := by
  cases v with
  | nil =>
    intro fuel rest _ hdep
    obtain ⟨f, rfl⟩ := Nat.exists_eq_add_of_le' (le_trans (depthVal_pos _) hdep)
    exact decVal_dispatch_nil f rest
  | bool b =>
    intro fuel rest _ hdep
    obtain ⟨f, rfl⟩ := Nat.exists_eq_add_of_le' (le_trans (depthVal_pos _) hdep)
    cases b
    · exact decVal_dispatch_false f rest
    · exact decVal_dispatch_true f rest
  | int i =>
    intro fuel rest hwf hdep
    obtain ⟨f, rfl⟩ := Nat.exists_eq_add_of_le' (le_trans (depthVal_pos _) hdep)
    simp only [wfVal, Bool.and_eq_true, decide_eq_true_eq] at hwf
    by_cases hi : 0 ≤ i
    · simp only [encVal, if_pos hi, List.cons_append]
      have hlt : i.toNat < 2 ^ 64 := by omega
      have hcast : ((i.toNat : Nat) : Int) = i := by omega
      rw [decVal_dispatch_uint f i.toNat rest hlt, hcast]
    · simp only [encVal, if_neg hi, List.cons_append]
      have h1 : 2 ^ 63 ≤ (i + 2 ^ 64).toNat := by omega
      have h2 : (i + 2 ^ 64).toNat < 2 ^ 64 := by omega
      have hcast : (((i + 2 ^ 64).toNat : Nat) : Int) - 2 ^ 64 = i := by omega
      rw [decVal_dispatch_negint f _ rest h1 h2, hcast]
  | f32 bits =>
    intro fuel rest hwf hdep
    obtain ⟨f, rfl⟩ := Nat.exists_eq_add_of_le' (le_trans (depthVal_pos _) hdep)
    simp only [wfVal, decide_eq_true_eq] at hwf
    simp only [encVal, List.cons_append]
    exact decVal_dispatch_f32 f bits rest hwf
  | f64 bits =>
    intro fuel rest hwf hdep
    obtain ⟨f, rfl⟩ := Nat.exists_eq_add_of_le' (le_trans (depthVal_pos _) hdep)
    simp only [wfVal, decide_eq_true_eq] at hwf
    simp only [encVal, List.cons_append]
    exact decVal_dispatch_f64 f bits rest hwf
  | str s =>
    intro fuel rest hwf hdep
    obtain ⟨f, rfl⟩ := Nat.exists_eq_add_of_le' (le_trans (depthVal_pos _) hdep)
    simp only [wfVal, decide_eq_true_eq] at hwf
    simp only [encVal, List.cons_append, List.append_assoc]
    exact decVal_dispatch_str f s rest hwf
  | bin d =>
    intro fuel rest hwf hdep
    obtain ⟨f, rfl⟩ := Nat.exists_eq_add_of_le' (le_trans (depthVal_pos _) hdep)
    simp only [wfVal, decide_eq_true_eq] at hwf
    simp only [encVal, List.cons_append, List.append_assoc]
    exact decVal_dispatch_bin f d rest hwf
  | ext t d =>
    intro fuel rest hwf hdep
    obtain ⟨f, rfl⟩ := Nat.exists_eq_add_of_le' (le_trans (depthVal_pos _) hdep)
    simp only [wfVal, Bool.and_eq_true, decide_eq_true_eq] at hwf
    simp only [encVal, List.cons_append, List.append_assoc]
    rw [decVal_dispatch_ext f (t % 256).toNat d rest hwf.2]
    have hval : (if (t % 256).toNat < 128 then ((t % 256).toNat : Int)
        else ((t % 256).toNat : Int) - 256) = t := by
      split_ifs <;> omega
    rw [hval]
  | array vs =>
    intro fuel rest hwf hdep
    obtain ⟨f, rfl⟩ := Nat.exists_eq_add_of_le' (le_trans (depthVal_pos _) hdep)
    simp only [wfVal, Bool.and_eq_true, decide_eq_true_eq] at hwf
    have hdep' : depthList vs ≤ f := by
      simp only [depthVal] at hdep
      omega
    simp only [encVal, List.cons_append, List.append_assoc]
    exact decVal_dispatch_array f vs.length (encList vs) rest vs hwf.1
      (decList_encList vs f rest hwf.2 hdep')
  | map kvs =>
    intro fuel rest hwf hdep
    obtain ⟨f, rfl⟩ := Nat.exists_eq_add_of_le' (le_trans (depthVal_pos _) hdep)
    simp only [wfVal, Bool.and_eq_true, decide_eq_true_eq] at hwf
    have hdep' : depthPairs kvs ≤ f := by
      simp only [depthVal] at hdep
      omega
    simp only [encVal, List.cons_append, List.append_assoc]
    exact decVal_dispatch_map f kvs.length (encPairs kvs) rest kvs hwf.1
      (decPairs_encPairs kvs f rest hwf.2 hdep')

/-- Decoding `vs.length` values from the concatenated element encodings yields
the elements back. -/
theorem decList_encList (vs : MpList) : ∀ (fuel : Nat) (rest : List Nat),
    wfList vs = true → depthList vs ≤ fuel →
    decList fuel vs.length (encList vs ++ rest) = some (vs, rest) := by
  cases vs with
  | nil =>
    intro fuel rest _ _
    simp [encList, MpList.length, decList]
  | cons v vs =>
    intro fuel rest hwf hdep
    simp only [wfList, Bool.and_eq_true] at hwf
    simp only [depthList, max_le_iff] at hdep
    simp only [encList, MpList.length, List.append_assoc, decList]
    rw [decVal_encVal v fuel (encList vs ++ rest) hwf.1 hdep.1]
    dsimp only
    rw [decList_encList vs fuel rest hwf.2 hdep.2]

/-- Decoding `kvs.length` pairs from the concatenated entry encodings yields
the entries back. -/
theorem decPairs_encPairs (kvs : MpPairs) : ∀ (fuel : Nat) (rest : List Nat),
    wfPairs kvs = true → depthPairs kvs ≤ fuel →
    decPairs fuel kvs.length (encPairs kvs ++ rest) = some (kvs, rest) := by
  cases kvs with
  | nil =>
    intro fuel rest _ _
    simp [encPairs, MpPairs.length, decPairs]
  | cons k v kvs =>
    intro fuel rest hwf hdep
    simp only [wfPairs, Bool.and_eq_true] at hwf
    simp only [depthPairs, max_le_iff] at hdep
    simp only [encPairs, MpPairs.length, List.append_assoc, decPairs]
    rw [decVal_encVal k fuel _ hwf.1 hdep.1]
    dsimp only
    rw [decVal_encVal v fuel _ hwf.2.1 hdep.2.1]
    dsimp only
    rw [decPairs_encPairs kvs fuel rest hwf.2.2 hdep.2.2]
end

mutual
theorem depthVal_le_encVal_length (v : MpValue) : depthVal v ≤ (encVal v).length := by
  cases v with
  | nil => simp [depthVal, encVal]
  | bool b => cases b <;> simp [depthVal, encVal]
  | int i =>
    simp only [depthVal, encVal]
    split_ifs <;> simp
  | f32 bits => simp [depthVal, encVal]
  | f64 bits => simp [depthVal, encVal]
  | str s => simp [depthVal, encVal]
  | bin d => simp [depthVal, encVal]
  | ext t d => simp [depthVal, encVal]
  | array vs =>
    have h := depthList_le_encList_length vs
    simp only [depthVal, encVal, List.length_cons, List.length_append, beBytes_length]
    omega
  | map kvs =>
    have h := depthPairs_le_encPairs_length kvs
    simp only [depthVal, encVal, List.length_cons, List.length_append, beBytes_length]
    omega
theorem depthList_le_encList_length (vs : MpList) : depthList vs ≤ (encList vs).length := by
  cases vs with
  | nil => simp [depthList, encList]
  | cons v vs =>
    simp only [depthList, encList, List.length_append, max_le_iff]
    constructor
    · exact le_trans (depthVal_le_encVal_length v) (Nat.le_add_right _ _)
    · exact le_trans (depthList_le_encList_length vs) (Nat.le_add_left _ _)
theorem depthPairs_le_encPairs_length (kvs : MpPairs) :
    depthPairs kvs ≤ (encPairs kvs).length := by
  cases kvs with
  | nil => simp [depthPairs, encPairs]
  | cons k v kvs =>
    simp only [depthPairs, encPairs, List.length_append, max_le_iff]
    refine ⟨le_trans (depthVal_le_encVal_length k) (Nat.le_add_right _ _),
      le_trans (depthVal_le_encVal_length v) ?_,
      le_trans (depthPairs_le_encPairs_length kvs) ?_⟩ <;> omega
end

/-- The three `f64` fields of `ResourceCapabilities`/`ResourceRequirements` as
carried on the wire, as IEEE-754 bit patterns. -/
structure WireResources where
  num_cpus : Nat
  num_gpus : Nat
  memory_gb : Nat

/-- `Message` from protocol/mod.rs: the five variants with their fields.
Strings are carried as UTF-8 byte lists, `pid` is a `u32`, the `f64` resource
fields are bit patterns, and `args`/`result` are MessagePack value trees. -/
inductive Message where
  | workerReady (worker_id : List Nat) (pid : Nat) (capabilities : WireResources)
  | taskAssignment (task_id : List Nat) (function_name : List Nat)
      (args : MpValue) (resources : WireResources)
  | taskResult (task_id : List Nat) (success : Bool) (result : MpValue)
  | shutdown (graceful : Bool)
  | heartbeat (worker_id : List Nat)

/-- UTF-8 bytes of the variant name `WorkerReady`. -/
def tagWorkerReady : List Nat := [87, 111, 114, 107, 101, 114, 82, 101, 97, 100, 121]

/-- UTF-8 bytes of the variant name `TaskAssignment`. -/
def tagTaskAssignment : List Nat :=
  [84, 97, 115, 107, 65, 115, 115, 105, 103, 110, 109, 101, 110, 116]

/-- UTF-8 bytes of the variant name `TaskResult`. -/
def tagTaskResult : List Nat := [84, 97, 115, 107, 82, 101, 115, 117, 108, 116]

/-- UTF-8 bytes of the variant name `Shutdown`. -/
def tagShutdown : List Nat := [83, 104, 117, 116, 100, 111, 119, 110]

/-- UTF-8 bytes of the variant name `Heartbeat`. -/
def tagHeartbeat : List Nat := [72, 101, 97, 114, 116, 98, 101, 97, 116]

/-- The serde tree of a resource triple: a 3-element array of `f64`. -/
def wireResourcesVal (r : WireResources) : MpValue :=
  MpValue.array (MpList.cons (MpValue.f64 r.num_cpus)
    (MpList.cons (MpValue.f64 r.num_gpus)
      (MpList.cons (MpValue.f64 r.memory_gb) MpList.nil)))

/-- The serde tree of a message: a one-entry map from the variant name to the
array of the variant's field values. -/
def msgValue : Message → MpValue
  | Message.workerReady wid pid caps =>
    MpValue.map (MpPairs.cons (MpValue.str tagWorkerReady)
      (MpValue.array (MpList.cons (MpValue.str wid)
        (MpList.cons (MpValue.int (pid : Int))
          (MpList.cons (wireResourcesVal caps) MpList.nil)))) MpPairs.nil)
  | Message.taskAssignment tid fn args res =>
    MpValue.map (MpPairs.cons (MpValue.str tagTaskAssignment)
      (MpValue.array (MpList.cons (MpValue.str tid)
        (MpList.cons (MpValue.str fn)
          (MpList.cons args
            (MpList.cons (wireResourcesVal res) MpList.nil))))) MpPairs.nil)
  | Message.taskResult tid success result =>
    MpValue.map (MpPairs.cons (MpValue.str tagTaskResult)
      (MpValue.array (MpList.cons (MpValue.str tid)
        (MpList.cons (MpValue.bool success)
          (MpList.cons result MpList.nil)))) MpPairs.nil)
  | Message.shutdown graceful =>
    MpValue.map (MpPairs.cons (MpValue.str tagShutdown)
      (MpValue.array (MpList.cons (MpValue.bool graceful) MpList.nil)) MpPairs.nil)
  | Message.heartbeat wid =>
    MpValue.map (MpPairs.cons (MpValue.str tagHeartbeat)
      (MpValue.array (MpList.cons (MpValue.str wid) MpList.nil)) MpPairs.nil)

/-- Parse a message back out of a serde tree: a one-entry map whose key names
the variant and whose value is the array of fields of the right shape. -/
def msgFromValue : MpValue → Option Message
  | MpValue.map (MpPairs.cons (MpValue.str tag) (MpValue.array fields) MpPairs.nil) =>
    if tag = tagWorkerReady then
      match fields with
      | MpList.cons (MpValue.str wid) (MpList.cons (MpValue.int pid)
          (MpList.cons (MpValue.array (MpList.cons (MpValue.f64 a)
            (MpList.cons (MpValue.f64 b) (MpList.cons (MpValue.f64 c) MpList.nil))))
          MpList.nil)) =>
        if 0 ≤ pid ∧ pid < 2 ^ 32 then
          some (Message.workerReady wid pid.toNat ⟨a, b, c⟩)
        else none
      | _ => none
    else if tag = tagTaskAssignment then
      match fields with
      | MpList.cons (MpValue.str tid) (MpList.cons (MpValue.str fn)
          (MpList.cons args
            (MpList.cons (MpValue.array (MpList.cons (MpValue.f64 a)
              (MpList.cons (MpValue.f64 b) (MpList.cons (MpValue.f64 c) MpList.nil))))
            MpList.nil))) =>
        some (Message.taskAssignment tid fn args ⟨a, b, c⟩)
      | _ => none
    else if tag = tagTaskResult then
      match fields with
      | MpList.cons (MpValue.str tid) (MpList.cons (MpValue.bool success)
          (MpList.cons result MpList.nil)) =>
        some (Message.taskResult tid success result)
      | _ => none
    else if tag = tagShutdown then
      match fields with
      | MpList.cons (MpValue.bool graceful) MpList.nil =>
        some (Message.shutdown graceful)
      | _ => none
    else if tag = tagHeartbeat then
      match fields with
      | MpList.cons (MpValue.str wid) MpList.nil => some (Message.heartbeat wid)
      | _ => none
    else none
  | _ => none

/-- Wellformedness of a message for the wire: the serde tree is wellformed and
`pid` fits in a `u32`. -/
def wfMsg (m : Message) : Bool :=
  wfVal (msgValue m) &&
  (match m with
   | Message.workerReady _ pid _ => decide (pid < 2 ^ 32)
   | _ => true)

/-- `Message::to_bytes` from protocol/mod.rs: the MessagePack encoding of the
message's serde tree. -/
def Message.to_bytes (m : Message) : List Nat := encVal (msgValue m)

/-- `Message::from_bytes` from protocol/mod.rs: decode a MessagePack value tree
and parse the tagged variant out of it. -/
def Message.from_bytes (bs : List Nat) : Option Message :=
  match decVal (bs.length + 1) bs with
  | some (v, _) => msgFromValue v
  | none => none

theorem msgFromValue_msgValue (m : Message) (h : wfMsg m = true) :
    msgFromValue (msgValue m) = some m := by
  cases m with
  | workerReady wid pid caps =>
    obtain ⟨a, b, c⟩ := caps
    simp only [wfMsg, Bool.and_eq_true, decide_eq_true_eq] at h
    have hguard : 0 ≤ (pid : Int) ∧ (pid : Int) < 2 ^ 32 :=
      ⟨Int.natCast_nonneg pid, by exact_mod_cast h.2⟩
    have htoNat : ((pid : Int)).toNat = pid := by omega
    simp only [msgValue, wireResourcesVal, msgFromValue]
    rw [if_pos trivial, if_pos hguard, htoNat]
  | taskAssignment tid fn args res =>
    obtain ⟨a, b, c⟩ := res
    simp only [msgValue, wireResourcesVal, msgFromValue]
    rw [if_pos trivial, if_neg (by decide)]
  | taskResult tid success result =>
    simp only [msgValue, msgFromValue]
    rw [if_pos trivial, if_neg (by decide), if_neg (by decide)]
  | shutdown graceful =>
    simp only [msgValue, msgFromValue]
    rw [if_pos trivial, if_neg (by decide), if_neg (by decide), if_neg (by decide)]
  | heartbeat wid =>
    simp only [msgValue, msgFromValue]
    rw [if_pos trivial, if_neg (by decide), if_neg (by decide), if_neg (by decide),
      if_neg (by decide)]

/-- Claim C9 (spec-modelled codec): for every wellformed protocol message —
each of the variants `WorkerReady`, `TaskAssignment`, `TaskResult`, `Shutdown`,
`Heartbeat`, over all field values — decoding the encoding yields a
structurally equal message: `Message.from_bytes (Message.to_bytes m) = some m`. -/
theorem C9_message_codec_roundtrip (m : Message) (h : wfMsg m = true) :
    Message.from_bytes (Message.to_bytes m) = some m := by
  unfold Message.from_bytes Message.to_bytes
  have hwf : wfVal (msgValue m) = true := by
    have h' := h
    simp only [wfMsg, Bool.and_eq_true] at h'
    exact h'.1
  have hdep : depthVal (msgValue m) ≤ (encVal (msgValue m)).length + 1 :=
    le_trans (depthVal_le_encVal_length _) (Nat.le_succ _)
  have hdec := decVal_encVal (msgValue m) ((encVal (msgValue m)).length + 1) [] hwf hdep
  rw [List.append_nil] at hdec
  rw [hdec]
  exact msgFromValue_msgValue m h

/-- The `args` tree of the spec's frame round-trip scenario:
`{"x": [1, 2, 3], "y": null}`. -/
def args0 : MpValue :=
  MpValue.map (MpPairs.cons (MpValue.str [120])
    (MpValue.array (MpList.cons (MpValue.int 1)
      (MpList.cons (MpValue.int 2) (MpList.cons (MpValue.int 3) MpList.nil))))
    (MpPairs.cons (MpValue.str [121]) MpValue.nil MpPairs.nil))

/-- A concrete `TaskAssignment` message (task id `t1`, function `f`). -/
def msg0 : Message := Message.taskAssignment [116, 49] [102] args0 ⟨1, 2, 3⟩

/-- Witness for C9 at the concrete `TaskAssignment` message. -/
theorem C9_message_codec_roundtrip_witness :
    wfMsg msg0 = true ∧ Message.from_bytes (Message.to_bytes msg0) = some msg0 :=
  ⟨by decide, C9_message_codec_roundtrip msg0 (by decide)⟩

end Neutrino
